import Mathlib

/-!
Verification of the blockchainz ledger core: a shallow embedding of the
block/header data model, the block validator, the blockchain state machine,
the transaction pool, and the fixed-width binary header codec, with theorems
settling the behavioural claims about them.

Modelling conventions:
- Go `uint32`/`uint64` arithmetic is `Nat` with explicit `% 2^w` at the
  operations where Go wraps (`Height()+1`, `b.Height-1`, `uint32(len-1)`).
- `types.Hash` (`[32]uint8`) is a `List Nat` of byte values.
- Crypto and gob-serialisation primitives live outside the repository
  (Go standard library); they are bundled in `CryptoModel` and the
  theorems hold for every choice of them.  Concrete instantiations
  (`cmId`) are used to evaluate the definitions on explicit inputs.
- Errors are the inductive `Err`, one constructor per `fmt.Errorf` site,
  identified by kind (the formatted message text is not modelled).
- In-place mutation (the cached hash field of a transaction, the headers
  slice of the chain) is explicit state passing: a Go method that mutates
  its receiver and returns a value becomes a Lean function returning the
  pair of the value and the updated receiver.
-/

namespace Blockchainz

/-- Model of `types.Hash` (`[32]uint8`): a list of byte values. -/
abbrev Hash := List Nat

/-- Model of `Hash.IsZero`: every byte of the digest is zero. -/
def hashIsZero (h : Hash) : Bool := h.all (fun b => b == 0)

/-- Model of `crypto.PublicKey` (opaque to the core logic). -/
abbrev PublicKey := Nat

/-- Model of `*crypto.Signature` payload (opaque to the core logic). -/
abbrev Signature := Nat

/-- Model of `crypto.PrivateKey` (opaque to the core logic). -/
abbrev PrivateKey := Nat

/-- Error kinds, one constructor per `fmt.Errorf` site reached by the
modelled operations.  `failedToVerifyTx` models the `%w`-wrapping in
`Server.ProcessTransaction`; `txErrorAt` expresses an error annotated with a
transaction index (used only by the claim-C4 specification variant — the
source never produces it). -/
inductive Err where
  | noSignature
  | invalidSignature
  | invalidDataHash
  | failedToCalcDataHash
  | txNoSignature
  | txInvalidSignature
  | blockAlreadyInChain
  | blockHeightMismatch
  | headerNotFound
  | indexOutOfRange
  | invalidPrevHash
  | failedToVerifyTx : Err → Err
  | txErrorAt : Nat → Err → Err
  deriving DecidableEq

/-- Model of `core.Transaction`: payload data, sender key, optional
signature, the cached hash field, and the locally assigned first-seen
timestamp (`int64`, as `Int`). -/
structure Transaction where
  Data : List Nat
  From : PublicKey
  Signature : Option Signature
  hash : Hash
  firstSeen : Int
  deriving DecidableEq

/-- Model of `core.Header` in the content-commitment variant of
`core/block.go` (fields `Version`, `DataHash`, `PrevHash`, `Timestamp`,
`Height`; heights and the version are `uint32`, the timestamp `uint64`). -/
structure Header where
  Version : Nat
  DataHash : Hash
  PrevHash : Hash
  Timestamp : Nat
  Height : Nat
  deriving DecidableEq

/-- Model of `core.Block`: embedded header, transaction batch, producer
identity and signature, plus the cached block-hash field. -/
structure Block where
  header : Header
  Transactions : List Transaction
  Validator : PublicKey
  Signature : Option Signature
  hash : Hash
  deriving DecidableEq

/-- The primitives the core borrows from the Go standard library: SHA-256,
the gob encodings of headers and transactions, and ECDSA signing and
verification.  All core theorems are proved for every choice of these. -/
structure CryptoModel where
  sha : List Nat → Hash
  gobHeader : Header → List Nat
  gobTx : Transaction → List Nat
  sigVerify : Signature → PublicKey → List Nat → Bool
  pubKeyOf : PrivateKey → PublicKey
  signData : PrivateKey → List Nat → Signature

/-- Model of `Transaction.Hash(TxHasher{})`: `TxHasher.Hash` is
`sha256.Sum256(tx.Data)`.  The method first caches the hash when the cached
field is zero, then returns `hasher.Hash(tx)` recomputed on the (updated)
receiver; the pair is (returned value, updated receiver). -/
def Transaction.HashRun (cm : CryptoModel) (tx : Transaction) : Hash × Transaction :=
  let tx' := if hashIsZero tx.hash then { tx with hash := cm.sha tx.Data } else tx
  (cm.sha tx'.Data, tx')

/-- Model of `Transaction.Sign`: sets the sender key and the signature over
`tx.Data` (RNG failure of the Go signer is not modelled: `signData` is the
successful signing outcome). -/
def Transaction.Sign (cm : CryptoModel) (privKey : PrivateKey) (tx : Transaction) : Transaction :=
  { tx with From := cm.pubKeyOf privKey, Signature := some (cm.signData privKey tx.Data) }

/-- Model of `Transaction.Verify`: no-signature check, then signature
verification against `(From, Data)`. -/
def Transaction.Verify (cm : CryptoModel) (tx : Transaction) : Option Err :=
  match tx.Signature with
  | none => some .txNoSignature
  | some sig => if cm.sigVerify sig tx.From tx.Data then none else some .txInvalidSignature

/-- Model of `Transaction.SetFirstSeen`. -/
def Transaction.SetFirstSeen (tx : Transaction) (timestamp : Int) : Transaction :=
  { tx with firstSeen := timestamp }

/-- Model of `CalculateDataHash`: each transaction is gob-encoded into one
shared buffer in order, and the buffer is hashed.  The gob encoder never
fails on these values, so the Go error branch is unreachable. -/
def calculateDataHash (cm : CryptoModel) (txx : List Transaction) : Hash :=
  cm.sha (txx.map cm.gobTx).flatten

/-- Model of `BlockHasher.Hash`: SHA-256 over `Header.Bytes()`, the gob
encoding of the header. -/
def blockHasherHash (cm : CryptoModel) (h : Header) : Hash :=
  cm.sha (cm.gobHeader h)

/-- First failing transaction of a batch, in order — the loop body of
`Block.Verify`. -/
def firstTxErr (cm : CryptoModel) : List Transaction → Option Err
  | [] => none
  | tx :: rest =>
    match Transaction.Verify cm tx with
    | some e => some e
    | none => firstTxErr cm rest

/-- Model of `Block.Verify` (content-commitment variant, `core/block.go`):
no-signature check, signature verification over the gob header bytes, the
per-transaction verification loop, and last the data-hash comparison. -/
def Block.Verify (cm : CryptoModel) (b : Block) : Option Err :=
  match b.Signature with
  | none => some .noSignature
  | some sig =>
    if ¬ cm.sigVerify sig b.Validator (cm.gobHeader b.header) then some .invalidSignature
    else
      match firstTxErr cm b.Transactions with
      | some e => some e
      | none =>
        if calculateDataHash cm b.Transactions ≠ b.header.DataHash then some .invalidDataHash
        else none

/-- Model of `core.Blockchain` observable state.  The store is
`MemoryStorage` (reproduced in the repository guide, `guide/4`), which keeps
no state and whose `Put` always succeeds, so the chain state is the header
list. -/
structure Blockchain where
  headers : List Header
  deriving DecidableEq

/-- 2^32, the modulus of Go `uint32` arithmetic. -/
def U32MOD : Nat := 4294967296

/-- Model of `Blockchain.Height`: `uint32(len(bc.headers) - 1)`.  Go
computes `len - 1` in `int` and converts, so an empty header list yields
`2^32 - 1` (the all-ones wraparound). -/
def Blockchain.Height (bc : Blockchain) : Nat :=
  (bc.headers.length + (U32MOD - 1)) % U32MOD

/-- Model of `Blockchain.HasBlock`: `height <= bc.Height()`. -/
def Blockchain.HasBlock (bc : Blockchain) (height : Nat) : Bool :=
  height ≤ bc.Height

/-- Model of `Blockchain.GetHeader`: out-of-range heights fail; in-range
heights index the header slice.  `indexOutOfRange` marks the Go runtime
panic of `bc.headers[height]` when the slice is shorter than `Height()+1`
suggests (reachable only for an empty or over-2^32 header list). -/
def Blockchain.GetHeader (bc : Blockchain) (height : Nat) : Except Err Header :=
  if bc.Height < height then .error .headerNotFound
  else
    match bc.headers[height]? with
    | some h => .ok h
    | none => .error .indexOutOfRange

/-- Model of `MemoryStorage.Put`: stores nothing and always succeeds (the
implementation is reproduced in the repository guide, `guide/4`). -/
def storePut (_b : Block) : Option Err := none

/-- Model of `Blockchain.addBlockWithoutValidation`: append the header,
then persist the block; the returned error is the store error. -/
def Blockchain.addBlockWithoutValidation (bc : Blockchain) (b : Block) :
    Option Err × Blockchain :=
  (storePut b, { headers := bc.headers ++ [b.header] })

/-- Model of `NewBlockchain`: start from an empty header list and append
the genesis block without validation. -/
def NewBlockchain (genesis : Block) : Option Err × Blockchain :=
  Blockchain.addBlockWithoutValidation { headers := [] } genesis

/-- Model of `Blockchain.AddBlock`, parameterised by the installed
validation policy (`SetValidator` makes the policy pluggable): on
validation failure return the error with the state untouched, otherwise
append without validation. -/
def Blockchain.AddBlock (validate : Blockchain → Block → Option Err)
    (bc : Blockchain) (b : Block) : Option Err × Blockchain :=
  match validate bc b with
  | some e => (some e, bc)
  | none => bc.addBlockWithoutValidation b

/-- Model of `BlockValidator.ValidateBlock` (the full variant cited by the
claims): duplicate-height check, height continuity against
`Height()+1` (`uint32` addition), parent fetch at `b.Height-1` (`uint32`
subtraction), previous-hash comparison, then `Block.Verify`. -/
def BlockValidator.ValidateBlock (cm : CryptoModel) (bc : Blockchain) (b : Block) :
    Option Err :=
  if bc.HasBlock b.header.Height then some .blockAlreadyInChain
  else if b.header.Height ≠ (bc.Height + 1) % U32MOD then some .blockHeightMismatch
  else
    match bc.GetHeader ((b.header.Height + (U32MOD - 1)) % U32MOD) with
    | .error e => some e
    | .ok prevHeader =>
      if blockHasherHash cm prevHeader ≠ b.header.PrevHash then some .invalidPrevHash
      else Block.Verify cm b

/-- Model of the Go map `map[types.Hash]*core.Transaction` as an
association list: inserting an existing key replaces its value in place,
a fresh key is appended. -/
def mapInsert (k : Hash) (v : Transaction) :
    List (Hash × Transaction) → List (Hash × Transaction)
  | [] => [(k, v)]
  | q :: rest => if q.1 = k then (k, v) :: rest else q :: mapInsert k v rest

/-- Model of `network.TxPool`: the hash-keyed transaction map. -/
structure TxPool where
  transactions : List (Hash × Transaction)
  deriving DecidableEq

/-- Model of `TxPool.Len`. -/
def TxPool.Len (p : TxPool) : Nat := p.transactions.length

/-- Model of `TxPool.Has`. -/
def TxPool.Has (p : TxPool) (h : Hash) : Bool :=
  p.transactions.any (fun q => q.1 == h)

/-- Model of `TxPool.Add`: compute the transaction hash (caching it on the
transaction) and store the transaction under it unconditionally; the
returned error is always nil. -/
def TxPool.Add (cm : CryptoModel) (p : TxPool) (tx : Transaction) :
    Option Err × TxPool :=
  let r := Transaction.HashRun cm tx
  (none, ⟨mapInsert r.1 r.2 p.transactions⟩)

/-- Model of `TxPool.Flush`. -/
def TxPool.Flush (_p : TxPool) : TxPool := ⟨[]⟩

/-- Model of the insertion step of sorting by `TxMapSorter.Less`
(`FirstSeen() < FirstSeen()`). -/
def insertByFirstSeen (tx : Transaction) : List Transaction → List Transaction
  | [] => [tx]
  | t :: ts => if tx.firstSeen < t.firstSeen then tx :: t :: ts else t :: insertByFirstSeen tx ts

/-- Sorting by `TxMapSorter.Less`.  `sort.Sort` guarantees only a
`Less`-sorted permutation; this insertion sort is one such algorithm, and
the ordering theorem quantifies over every enumeration of the map, which
covers both the unspecified Go map iteration order and any conforming sort
algorithm (under the distinct-timestamp hypothesis the sorted permutation
is unique). -/
def sortByFirstSeen : List Transaction → List Transaction
  | [] => []
  | t :: ts => insertByFirstSeen t (sortByFirstSeen ts)

/-- Model of `TxPool.Transactions`: enumerate the map values and sort them
by first-seen. -/
def TxPool.Transactions (p : TxPool) : List Transaction :=
  sortByFirstSeen (p.transactions.map Prod.snd)

/-- Model of `Server.ProcessTransaction` acting on the mempool: hash the
transaction, skip it silently when the pool already has the hash, verify
it (wrapping a failure), stamp the first-seen time with the local clock,
and add it to the pool.  The broadcast goroutine does not touch the pool. -/
def processTransaction (cm : CryptoModel) (now : Int) (pool : TxPool)
    (tx : Transaction) : Option Err × TxPool :=
  let r := Transaction.HashRun cm tx
  if pool.Has r.1 then (none, pool)
  else
    match Transaction.Verify cm r.2 with
    | some e => (some (.failedToVerifyTx e), pool)
    | none => TxPool.Add cm pool (r.2.SetFirstSeen now)

/-- Sequence of `TxPool.Add` calls, in order. -/
def addAll (cm : CryptoModel) (p : TxPool) : List Transaction → TxPool
  | [] => p
  | tx :: rest => addAll cm (TxPool.Add cm p tx).2 rest

/-- Written from the words of claim C2, for comparison with the source
definition `BlockValidator.ValidateBlock`: (1) a header already stored at
the candidate's height is a duplicate; (2) the height must be exactly one
past the ledger height (`count - 1`, in plain arithmetic); (3) the parent
header is fetched at `Height - 1`, failing if absent, and its hash must
equal the candidate's `PrevHash`; (4) the rest is `Block.Verify`,
propagated unchanged. -/
def validateBlockSpecC2 (cm : CryptoModel) (bc : Blockchain) (b : Block) : Option Err :=
  if b.header.Height < bc.headers.length then some .blockAlreadyInChain
  else if b.header.Height ≠ bc.headers.length then some .blockHeightMismatch
  else
    match bc.headers[b.header.Height - 1]? with
    | none => some .headerNotFound
    | some prevHeader =>
      if blockHasherHash cm prevHeader ≠ b.header.PrevHash then some .invalidPrevHash
      else Block.Verify cm b

/-- First failing transaction of a batch with its index attached — the
per-transaction loop as claim C4 words it (`propagated with its index`). -/
def firstTxErrIdx (cm : CryptoModel) (i : Nat) : List Transaction → Option Err
  | [] => none
  | tx :: rest =>
    match Transaction.Verify cm tx with
    | some e => some (.txErrorAt i e)
    | none => firstTxErrIdx cm (i + 1) rest

/-- Written from the words of claim C4, for comparison with the source
definition `Block.Verify`: no-signature, invalid-signature, then the
content-mismatch check, and only then the per-transaction loop with the
failing index attached. -/
def verifySpecC4 (cm : CryptoModel) (b : Block) : Option Err :=
  match b.Signature with
  | none => some .noSignature
  | some sig =>
    if ¬ cm.sigVerify sig b.Validator (cm.gobHeader b.header) then some .invalidSignature
    else if calculateDataHash cm b.Transactions ≠ b.header.DataHash then some .invalidDataHash
    else firstTxErrIdx cm 0 b.Transactions

namespace Bin

/-- Model of `core.Header` in the fixed-binary-format variant of
`core/block.go` (the one defining `EncodeBinary`/`DecodeBinary`): fields
`Version` (`uint32`), `PrevHash` (`types.Hash`), `Timestamp` (`uint64`),
`Height` (`uint32`), `Nonce` (`uint64`). -/
structure Header where
  Version : Nat
  PrevHash : List Nat
  Timestamp : Nat
  Height : Nat
  Nonce : Nat
  deriving DecidableEq

/-- Little-endian byte serialisation of a `w`-byte unsigned integer, as
`binary.Write(w, binary.LittleEndian, _)` produces for the fixed-width
integer types. -/
def toLE : Nat → Nat → List Nat
  | 0, _ => []
  | w + 1, n => (n % 256) :: toLE w (n / 256)

/-- Little-endian byte deserialisation, as `binary.Read` performs. -/
def fromLE : List Nat → Nat
  | [] => 0
  | b :: bs => b + 256 * fromLE bs

/-- Model of `Header.EncodeBinary`: the five fields written in order with
`binary.Write(w, binary.LittleEndian, _)` — version (4 bytes), previous
hash (32 raw bytes), timestamp (8 bytes), height (4 bytes), nonce
(8 bytes). -/
def Header.EncodeBinary (h : Header) : List Nat :=
  toLE 4 h.Version ++ h.PrevHash ++ toLE 8 h.Timestamp ++ toLE 4 h.Height ++ toLE 8 h.Nonce

/-- Read `w` raw bytes from the stream (`binary.Read` into a byte array);
fails on a short stream. -/
def readBytes (w : Nat) (l : List Nat) : Option (List Nat × List Nat) :=
  if w ≤ l.length then some (l.take w, l.drop w) else none

/-- Read a `w`-byte little-endian unsigned integer from the stream. -/
def readLE (w : Nat) (l : List Nat) : Option (Nat × List Nat) :=
  (readBytes w l).map (fun p => (fromLE p.1, p.2))

/-- Model of `Header.DecodeBinary`: the five `binary.Read` calls in field
order, failing on the first short read, returning the decoded header and
the unconsumed rest of the stream. -/
def Header.DecodeBinary (l : List Nat) : Option (Header × List Nat) :=
  match readLE 4 l with
  | none => none
  | some (version, l1) =>
    match readBytes 32 l1 with
    | none => none
    | some (prevHash, l2) =>
      match readLE 8 l2 with
      | none => none
      | some (timestamp, l3) =>
        match readLE 4 l3 with
        | none => none
        | some (height, l4) =>
          match readLE 8 l4 with
          | none => none
          | some (nonce, l5) =>
            some (⟨version, prevHash, timestamp, height, nonce⟩, l5)

/-- Valid field assignment: each integer field within its Go width, the
previous hash exactly 32 bytes. -/
abbrev WF (h : Header) : Prop :=
  h.Version < 4294967296 ∧ h.PrevHash.length = 32 ∧
  h.Timestamp < 18446744073709551616 ∧ h.Height < 4294967296 ∧
  h.Nonce < 18446744073709551616

end Bin

/-- Concrete instantiation of the external primitives used to evaluate the
definitions on explicit inputs: SHA-256 and the gob encodings become the
identity-style maps below, and every signature verifies.  The theorems
themselves are proved for every `CryptoModel`. -/
def cmId : CryptoModel :=
  { sha := fun l => l
    gobHeader := fun _ => []
    gobTx := fun _ => []
    sigVerify := fun _ _ _ => true
    pubKeyOf := fun k => k
    signData := fun _ _ => 0 }

/-- Concrete header for witnesses. -/
def hdr0 : Header :=
  { Version := 0, DataHash := [], PrevHash := [], Timestamp := 0, Height := 0 }

/-- Concrete genesis-style block for witnesses. -/
def blk0 : Block :=
  { header := hdr0, Transactions := [], Validator := 0, Signature := none, hash := [] }

/-- Concrete transaction: data `[7]`, first seen at time 5, unsigned. -/
def txA : Transaction :=
  { Data := [7], From := 0, Signature := none, hash := [], firstSeen := 5 }

/-- Concrete transaction with the same data as `txA` but first seen later:
its `TxHasher` hash collides with `txA`'s by design (the hash covers the
data only). -/
def txB : Transaction :=
  { Data := [7], From := 0, Signature := none, hash := [], firstSeen := 9 }

/-- Concrete transaction with distinct data, first seen after `txA`. -/
def txC : Transaction :=
  { Data := [8], From := 0, Signature := none, hash := [], firstSeen := 9 }

/-- Concrete block exercising `Block.Verify`: signed, one unsigned
transaction, and a data-hash field that does not match the batch. -/
def blkC4 : Block :=
  { header := { hdr0 with DataHash := [9] }, Transactions := [txA],
    Validator := 0, Signature := some 0, hash := [] }

/-- Concrete block like `blkC4` but whose data-hash field matches the
batch (under `cmId`, the batch encodes to `[]`). -/
def blkC4b : Block :=
  { header := hdr0, Transactions := [txA],
    Validator := 0, Signature := some 0, hash := [] }

/-- Concrete block with an empty (hence verifying) batch but a mismatched
data-hash field. -/
def blkC4c : Block :=
  { header := { hdr0 with DataHash := [9] }, Transactions := [],
    Validator := 0, Signature := some 0, hash := [] }

/-- Concrete well-formed binary-format header for witnesses. -/
def hdrB : Bin.Header :=
  { Version := 1, PrevHash := List.replicate 32 2, Timestamp := 3, Height := 4, Nonce := 5 }

/-- Concrete all-zero binary-format header. -/
def hdrB0 : Bin.Header :=
  { Version := 0, PrevHash := List.replicate 32 0, Timestamp := 0, Height := 0, Nonce := 0 }

/-- The returned value of `Transaction.Hash` is the digest of the data,
whatever the state of the cache. -/
theorem hashRun_fst (cm : CryptoModel) (tx : Transaction) :
    (Transaction.HashRun cm tx).1 = cm.sha tx.Data := by
  unfold Transaction.HashRun
  split <;> rfl

/-- C10: every chain built by `NewBlockchain` has the genesis header
appended before any error could be reported (and the memory store never
errs), so the header list is non-empty, `Height()` — `uint32(len - 1)` —
is 0 rather than an underflow, and `GetHeader(0)` succeeds. -/
theorem newBlockchain_genesis_header_present (g : Block) :
    (NewBlockchain g).1 = none ∧
    (NewBlockchain g).2.headers = [g.header] ∧
    (NewBlockchain g).2.Height = 0 ∧
    (NewBlockchain g).2.GetHeader 0 = .ok g.header := by
  refine ⟨rfl, rfl, ?_, ?_⟩
  · show (([] ++ [g.header] : List Header).length + (U32MOD - 1)) % U32MOD = 0
    norm_num [U32MOD]
  · show Blockchain.GetHeader ⟨[] ++ [g.header]⟩ 0 = .ok g.header
    unfold Blockchain.GetHeader Blockchain.Height
    norm_num [U32MOD]

/-- C1: whenever `AddBlock` returns a non-nil error — under any installed
validation policy — the ledger state (headers, hence height; the memory
store keeps no state) is exactly what it was before the call. -/
theorem addBlock_error_leaves_state_unchanged
    (validate : Blockchain → Block → Option Err) (bc : Blockchain) (b : Block)
    (e : Err) (h : (Blockchain.AddBlock validate bc b).1 = some e) :
    (Blockchain.AddBlock validate bc b).2 = bc := by
  unfold Blockchain.AddBlock at h ⊢
  cases hv : validate bc b with
  | some e2 => rfl
  | none =>
    rw [hv] at h
    simp [Blockchain.addBlockWithoutValidation, storePut] at h

/-- Witness for C1 at a concrete chain, block and rejecting policy. -/
theorem addBlock_error_leaves_state_unchanged_witness :
    (Blockchain.AddBlock (fun _ _ => some .noSignature) ⟨[hdr0]⟩ blk0).2 = ⟨[hdr0]⟩ :=
  addBlock_error_leaves_state_unchanged (fun _ _ => some .noSignature) ⟨[hdr0]⟩ blk0
    .noSignature rfl

/-- C7: `AddBlock` (under any installed validation policy) either leaves
the header list unchanged or appends exactly the candidate's header, so
every previously stored header survives at its index; the list never
becomes empty; and `Height()` equals `count(headers) - 1` (the reads
`Height`, `GetHeader`, `HasBlock` touch no state). -/
theorem blockchain_headers_append_only
    (validate : Blockchain → Block → Option Err) (bc : Blockchain) (b : Block) :
    ((Blockchain.AddBlock validate bc b).2.headers = bc.headers ∨
      (Blockchain.AddBlock validate bc b).2.headers = bc.headers ++ [b.header]) ∧
    (∀ (i : Nat) (h : Header), bc.headers[i]? = some h →
      (Blockchain.AddBlock validate bc b).2.headers[i]? = some h) ∧
    (bc.headers ≠ [] → (Blockchain.AddBlock validate bc b).2.headers ≠ []) ∧
    (bc.headers ≠ [] → bc.headers.length ≤ U32MOD →
      bc.Height = bc.headers.length - 1) := by
  have hcases : (Blockchain.AddBlock validate bc b).2.headers = bc.headers ∨
      (Blockchain.AddBlock validate bc b).2.headers = bc.headers ++ [b.header] := by
    unfold Blockchain.AddBlock
    cases hv : validate bc b with
    | some e => exact Or.inl rfl
    | none => exact Or.inr rfl
  refine ⟨hcases, ?_, ?_, ?_⟩
  · intro i h hi
    have hlt : i < bc.headers.length := by
      have := List.getElem?_eq_some.mp hi
      exact this.1
    cases hcases with
    | inl hsame => rw [hsame]; exact hi
    | inr happ => rw [happ, List.getElem?_append, if_pos hlt]; exact hi
  · intro hne
    cases hcases with
    | inl hsame => rw [hsame]; exact hne
    | inr happ => rw [happ]; simp
  · intro hne hlen
    have hpos : 0 < bc.headers.length := List.length_pos.mpr hne
    unfold Blockchain.Height U32MOD
    unfold U32MOD at hlen
    omega

/-- Witness for C7 at a concrete chain and block: the stored header
survives the call, and the height identity holds. -/
theorem blockchain_headers_append_only_witness :
    (Blockchain.AddBlock (fun _ _ => none) ⟨[hdr0]⟩ blk0).2.headers[0]? = some hdr0 ∧
    Blockchain.Height ⟨[hdr0]⟩ = ([hdr0] : List Header).length - 1 := by
  constructor
  · exact (blockchain_headers_append_only (fun _ _ => none) ⟨[hdr0]⟩ blk0).2.1 0 hdr0 rfl
  · exact (blockchain_headers_append_only (fun _ _ => none) ⟨[hdr0]⟩ blk0).2.2.2
      (by simp) (by norm_num [U32MOD])

/-- C6: the transaction hash returned by `Transaction.Hash` under
`TxHasher` is a function of the data only — equal data gives equal hashes
whatever the sender key and signature fields and whatever the cache state;
in particular re-signing the same data with different private keys leaves
the hash unchanged. -/
theorem tx_hash_depends_on_data_only (cm : CryptoModel) (tx1 tx2 : Transaction)
    (h : tx1.Data = tx2.Data) :
    (Transaction.HashRun cm tx1).1 = (Transaction.HashRun cm tx2).1 ∧
    ∀ k1 k2 : PrivateKey,
      (Transaction.HashRun cm (Transaction.Sign cm k1 tx1)).1 =
        (Transaction.HashRun cm (Transaction.Sign cm k2 tx2)).1 := by
  constructor
  · rw [hashRun_fst, hashRun_fst, h]
  · intro k1 k2
    rw [hashRun_fst, hashRun_fst]
    simp [Transaction.Sign, h]

/-- Witness for C6 at two concrete transactions sharing data `[7]` but
differing in first-seen time. -/
theorem tx_hash_depends_on_data_only_witness :
    (Transaction.HashRun cmId txA).1 = (Transaction.HashRun cmId txB).1 :=
  (tx_hash_depends_on_data_only cmId txA txB rfl).1

/-- Fetching within range succeeds with the stored header. -/
theorem getHeader_ok (bc : Blockchain) (i : Nat) (hlt : i < bc.headers.length)
    (hge : ¬ bc.Height < i) : bc.GetHeader i = .ok (bc.headers.get ⟨i, hlt⟩) := by
  unfold Blockchain.GetHeader
  rw [if_neg hge, List.getElem?_eq_getElem hlt]
  rfl

/-- On a non-empty header list of `uint32`-representable size, the height
is the header count minus one. -/
theorem height_eq_length_sub_one (bc : Blockchain)
    (hne : bc.headers ≠ []) (hlen : bc.headers.length ≤ U32MOD) :
    bc.Height = bc.headers.length - 1 := by
  have hpos : 0 < bc.headers.length := List.length_pos.mpr hne
  unfold Blockchain.Height U32MOD
  unfold U32MOD at hlen
  omega

/-- C2: on every reachable ledger state (a non-empty header list of
`uint32`-representable size) and every `uint32` candidate height, the
source validator agrees everywhere with the claim's four checks taken in
the claim's order — duplicate height, height continuity, parent fetch and
previous-hash linkage, then `Block.Verify` propagated unchanged. -/
theorem validateBlock_matches_claim_order (cm : CryptoModel) (bc : Blockchain) (b : Block)
    (hne : bc.headers ≠ []) (hlen : bc.headers.length < U32MOD) :
    BlockValidator.ValidateBlock cm bc b = validateBlockSpecC2 cm bc b := by
  have hpos : 0 < bc.headers.length := List.length_pos.mpr hne
  have hht : bc.Height = bc.headers.length - 1 :=
    height_eq_length_sub_one bc hne (Nat.le_of_lt hlen)
  unfold U32MOD at hlen
  unfold BlockValidator.ValidateBlock validateBlockSpecC2
  by_cases hdup : b.header.Height < bc.headers.length
  · have hHB : bc.HasBlock b.header.Height = true := by
      unfold Blockchain.HasBlock
      rw [hht]
      exact decide_eq_true (by omega)
    rw [hHB, if_pos rfl, if_pos hdup]
  · have hHB : bc.HasBlock b.header.Height = false := by
      unfold Blockchain.HasBlock
      rw [hht]
      exact decide_eq_false (by omega)
    rw [hHB, if_neg Bool.false_ne_true, if_neg hdup]
    have hmod : (bc.Height + 1) % U32MOD = bc.headers.length := by
      rw [hht]
      unfold U32MOD
      omega
    rw [hmod]
    by_cases hnext : b.header.Height = bc.headers.length
    · rw [if_neg (by omega), if_neg (by omega)]
      have hidx : (b.header.Height + (U32MOD - 1)) % U32MOD = bc.headers.length - 1 := by
        unfold U32MOD
        omega
      rw [hidx]
      have hlt : bc.headers.length - 1 < bc.headers.length := by omega
      rw [getHeader_ok bc (bc.headers.length - 1) hlt (by rw [hht]; omega)]
      rw [show b.header.Height - 1 = bc.headers.length - 1 by omega]
      rw [List.getElem?_eq_getElem hlt]
      rfl
    · rw [if_pos hnext, if_pos hnext]

/-- Witness for C2 at a concrete one-header chain and a concrete
candidate. -/
theorem validateBlock_matches_claim_order_witness :
    BlockValidator.ValidateBlock cmId ⟨[hdr0]⟩ blk0 = validateBlockSpecC2 cmId ⟨[hdr0]⟩ blk0 :=
  validateBlock_matches_claim_order cmId ⟨[hdr0]⟩ blk0 (by simp)
    (by norm_num [U32MOD])

/-- A transaction batch passes the `Block.Verify` loop exactly when every
transaction in it verifies. -/
theorem firstTxErr_eq_none_iff (cm : CryptoModel) (txs : List Transaction) :
    firstTxErr cm txs = none ↔ ∀ tx ∈ txs, Transaction.Verify cm tx = none := by
  induction txs with
  | nil => simp [firstTxErr]
  | cons t ts ih =>
    cases hv : Transaction.Verify cm t with
    | some e =>
      simp only [firstTxErr, hv]
      constructor
      · intro h; cases h
      · intro h
        have ht := h t (List.mem_cons_self t ts)
        rw [hv] at ht
        cases ht
    | none =>
      simp only [firstTxErr, hv]
      rw [ih]
      constructor
      · intro h tx htx
        rcases List.mem_cons.mp htx with h1 | h2
        · rw [h1]; exact hv
        · exact h tx h2
      · intro h tx htx
        exact h tx (List.mem_cons_of_mem t htx)

/-- Counterexample to C4 as stated: at `blkC4` (valid signature, one
failing transaction, mismatched commitment) the source returns the
transaction error though the claim's order demands the content-mismatch
error first; at `blkC4b` (valid signature, matching commitment, one
failing transaction) the source propagates the transaction error without
the index the claim attaches. -/
theorem block_verify_order_counterexample :
    Block.Verify cmId blkC4 ≠ verifySpecC4 cmId blkC4 ∧
    Block.Verify cmId blkC4b ≠ verifySpecC4 cmId blkC4b := by
  constructor <;> decide

/-- C4 as amended: `Block.Verify` fails with no-signature if unsigned,
else with invalid-signature if the header signature does not verify, then
propagates the first failing transaction's error unchanged (without an
index), and only then fails with the content-mismatch error; it returns
nil exactly when the signature verifies, every transaction verifies, and
the recomputed batch hash equals the stored commitment. -/
theorem block_verify_check_order (cm : CryptoModel) (b : Block) :
    (b.Signature = none → Block.Verify cm b = some .noSignature) ∧
    (∀ sig, b.Signature = some sig →
      cm.sigVerify sig b.Validator (cm.gobHeader b.header) = false →
      Block.Verify cm b = some .invalidSignature) ∧
    (∀ sig, b.Signature = some sig →
      cm.sigVerify sig b.Validator (cm.gobHeader b.header) = true →
      firstTxErr cm b.Transactions ≠ none →
      Block.Verify cm b = firstTxErr cm b.Transactions) ∧
    (∀ sig, b.Signature = some sig →
      cm.sigVerify sig b.Validator (cm.gobHeader b.header) = true →
      firstTxErr cm b.Transactions = none →
      calculateDataHash cm b.Transactions ≠ b.header.DataHash →
      Block.Verify cm b = some .invalidDataHash) ∧
    (Block.Verify cm b = none ↔
      (∃ sig, b.Signature = some sig ∧
        cm.sigVerify sig b.Validator (cm.gobHeader b.header) = true) ∧
      (∀ tx ∈ b.Transactions, Transaction.Verify cm tx = none) ∧
      calculateDataHash cm b.Transactions = b.header.DataHash) := by
  refine ⟨?_, ?_, ?_, ?_, ?_⟩
  · intro hs
    unfold Block.Verify
    rw [hs]
  · intro sig hs hv
    unfold Block.Verify
    simp only [hs]
    rw [hv, if_pos (by simp)]
  · intro sig hs hv hne
    unfold Block.Verify
    simp only [hs]
    rw [hv, if_neg (not_not_intro rfl)]
    cases he : firstTxErr cm b.Transactions with
    | some e => rfl
    | none => exact absurd he hne
  · intro sig hs hv he hd
    unfold Block.Verify
    simp only [hs]
    rw [hv, if_neg (not_not_intro rfl)]
    simp only [he]
    rw [if_pos hd]
  · cases hs : b.Signature with
    | none =>
      unfold Block.Verify
      simp only [hs]
      constructor
      · intro h
        exact Option.noConfusion h
      · rintro ⟨⟨sig, hsig, _⟩, _, _⟩
        exact Option.noConfusion hsig
    | some sig =>
      unfold Block.Verify
      simp only [hs]
      by_cases hv : cm.sigVerify sig b.Validator (cm.gobHeader b.header) = true
      · rw [hv, if_neg (not_not_intro rfl)]
        cases he : firstTxErr cm b.Transactions with
        | some e =>
          constructor
          · intro h
            exact Option.noConfusion h
          · rintro ⟨_, hall, _⟩
            have hnone := (firstTxErr_eq_none_iff cm b.Transactions).mpr hall
            rw [he] at hnone
            exact Option.noConfusion hnone
        | none =>
          have hall := (firstTxErr_eq_none_iff cm b.Transactions).mp he
          by_cases hd : calculateDataHash cm b.Transactions = b.header.DataHash
          · rw [if_neg (not_not_intro hd)]
            constructor
            · intro _
              exact ⟨⟨sig, rfl, hv⟩, hall, hd⟩
            · intro _
              rfl
          · rw [if_pos hd]
            constructor
            · intro h
              exact Option.noConfusion h
            · rintro ⟨_, _, hdh⟩
              exact absurd hdh hd
      · have hv2 : cm.sigVerify sig b.Validator (cm.gobHeader b.header) = false :=
          Bool.eq_false_iff.mpr hv
        rw [hv2, if_pos (by simp)]
        constructor
        · intro h
          exact Option.noConfusion h
        · rintro ⟨⟨sig2, hsig2, hver2⟩, _, _⟩
          injection hsig2 with h2
          rw [← h2] at hver2
          rw [hv2] at hver2
          exact Bool.noConfusion hver2

/-- Witness for C4's amended theorem at concrete blocks: the unsigned
genesis-style block fails with no-signature, `blkC4` propagates the
transaction error, and `blkC4c` fails the content check. -/
theorem block_verify_check_order_witness :
    Block.Verify cmId blk0 = some .noSignature ∧
    Block.Verify cmId blkC4 = firstTxErr cmId blkC4.Transactions ∧
    Block.Verify cmId blkC4c = some .invalidDataHash := by
  refine ⟨?_, ?_, ?_⟩
  · exact (block_verify_check_order cmId blk0).1 rfl
  · exact (block_verify_check_order cmId blkC4).2.2.1 0 rfl rfl (by decide)
  · exact (block_verify_check_order cmId blkC4c).2.2.2.1 0 rfl rfl rfl (by decide)

/-- Inserting a key that the map already holds replaces its value without
changing the entry count. -/
theorem mapInsert_length_of_mem (k : Hash) (v : Transaction)
    (l : List (Hash × Transaction)) (h : l.any (fun q => q.1 == k) = true) :
    (mapInsert k v l).length = l.length := by
  induction l with
  | nil => simp at h
  | cons q rest ih =>
    unfold mapInsert
    by_cases hk : q.1 = k
    · rw [if_pos hk]
      rfl
    · rw [if_neg hk]
      simp only [List.length_cons]
      have h2 : rest.any (fun q => q.1 == k) = true := by
        simp only [List.any_cons] at h
        cases (Bool.or_eq_true _ _).mp h with
        | inl h1 => exact absurd (eq_of_beq h1) hk
        | inr h1 => exact h1
      rw [ih h2]

/-- Counterexample to C3 as stated: `txB` carries the same data as the
already-pooled `txA` (hence the same hash), yet `Add` neither returns
early nor leaves the pool untouched — it overwrites the stored
transaction (the pool changes although the hash was present). -/
theorem txpool_add_counterexample :
    TxPool.Has (TxPool.Add cmId ⟨[]⟩ txA).2 (Transaction.HashRun cmId txB).1 = true ∧
    (TxPool.Add cmId (TxPool.Add cmId ⟨[]⟩ txA).2 txB).2 ≠ (TxPool.Add cmId ⟨[]⟩ txA).2 :=
  ⟨by decide, by decide⟩

/-- C3 as amended: `TxPool.Add` always succeeds and unconditionally
stores the transaction under its hash (replacing, not skipping, an entry
already present — though the entry count is then unchanged); it never
stamps the first-seen time.  The presence check and the first-seen stamp
live one layer up, in `Server.ProcessTransaction`, which on a duplicate
hash returns success with the pool untouched. -/
theorem txpool_add_amended (cm : CryptoModel) (p : TxPool) (tx : Transaction) :
    (TxPool.Add cm p tx).1 = none ∧
    (TxPool.Add cm p tx).2.transactions =
      mapInsert (Transaction.HashRun cm tx).1 (Transaction.HashRun cm tx).2 p.transactions ∧
    (TxPool.Has p (Transaction.HashRun cm tx).1 = true →
      (TxPool.Add cm p tx).2.Len = p.Len) ∧
    (∀ now : Int, TxPool.Has p (Transaction.HashRun cm tx).1 = true →
      processTransaction cm now p tx = (none, p)) := by
  refine ⟨rfl, rfl, ?_, ?_⟩
  · intro hHas
    exact mapInsert_length_of_mem _ _ p.transactions hHas
  · intro now hHas
    simp only [processTransaction]
    rw [hHas, if_pos rfl]

/-- Witness for C3's amended theorem: re-adding under an occupied hash
keeps the entry count, and `ProcessTransaction` skips the duplicate
leaving the pool untouched. -/
theorem txpool_add_amended_witness :
    (TxPool.Add cmId (TxPool.Add cmId ⟨[]⟩ txA).2 txB).2.Len =
      (TxPool.Add cmId ⟨[]⟩ txA).2.Len ∧
    processTransaction cmId 11 (TxPool.Add cmId ⟨[]⟩ txA).2 txB =
      (none, (TxPool.Add cmId ⟨[]⟩ txA).2) := by
  constructor
  · exact (txpool_add_amended cmId (TxPool.Add cmId ⟨[]⟩ txA).2 txB).2.2.1 (by decide)
  · exact (txpool_add_amended cmId (TxPool.Add cmId ⟨[]⟩ txA).2 txB).2.2.2 11 (by decide)

/-- The little-endian serialisation of a `w`-byte integer is `w` bytes
long. -/
theorem toLE_length (w n : Nat) : (Bin.toLE w n).length = w := by
  induction w generalizing n with
  | zero => rfl
  | succ w ih => simp [Bin.toLE, ih]

/-- Deserialising the little-endian serialisation restores the integer,
for every integer within the field width. -/
theorem fromLE_toLE (w n : Nat) (h : n < 256 ^ w) :
    Bin.fromLE (Bin.toLE w n) = n := by
  induction w generalizing n with
  | zero =>
    have h1 : n = 0 := Nat.lt_one_iff.mp (by simpa using h)
    rw [h1]
    rfl
  | succ w ih =>
    have h2 : n / 256 < 256 ^ w := by
      rw [Nat.div_lt_iff_lt_mul (by norm_num : 0 < 256), ← pow_succ]
      exact h
    unfold Bin.toLE Bin.fromLE
    rw [ih (n / 256) h2]
    omega

/-- Reading `w` raw bytes from a stream that starts with `w` bytes
returns them and the rest. -/
theorem readBytes_append (w : Nat) (l rest : List Nat) (h : l.length = w) :
    Bin.readBytes w (l ++ rest) = some (l, rest) := by
  subst h
  unfold Bin.readBytes
  rw [if_pos (by simp), List.take_left, List.drop_left]

/-- Reading a `w`-byte little-endian integer from a stream that starts
with its serialisation returns it and the rest. -/
theorem readLE_append (w n : Nat) (rest : List Nat) (h : n < 256 ^ w) :
    Bin.readLE w (Bin.toLE w n ++ rest) = some (n, rest) := by
  unfold Bin.readLE
  rw [readBytes_append w _ rest (toLE_length w n)]
  simp [fromLE_toLE w n h]

/-- Decoding a stream that starts with an encoded well-formed header
restores the header exactly and leaves the rest of the stream. -/
theorem encodeBinary_decodeBinary (h : Bin.Header) (rest : List Nat) (hwf : Bin.WF h) :
    Bin.Header.DecodeBinary (h.EncodeBinary ++ rest) = some (h, rest) := by
  obtain ⟨h1, h2, h3, h4, h5⟩ := hwf
  have e1 : h.Version < 256 ^ 4 := by norm_num; exact h1
  have e3 : h.Timestamp < 256 ^ 8 := by norm_num; exact h3
  have e4 : h.Height < 256 ^ 4 := by norm_num; exact h4
  have e5 : h.Nonce < 256 ^ 8 := by norm_num; exact h5
  simp only [Bin.Header.EncodeBinary, Bin.Header.DecodeBinary, List.append_assoc,
    readLE_append 4 h.Version, readBytes_append 32 h.PrevHash,
    readLE_append 8 h.Timestamp, readLE_append 4 h.Height, readLE_append 8 h.Nonce,
    e1, e3, e4, e5, h2]

/-- C9: encoding a header with `EncodeBinary` and decoding the bytes with
`DecodeBinary` restores every field — version, previous hash, timestamp,
height, nonce — for every valid field assignment, consuming the stream
exactly. -/
theorem header_encode_decode_roundtrip (h : Bin.Header) (hwf : Bin.WF h) :
    Bin.Header.DecodeBinary h.EncodeBinary = some (h, []) := by
  have := encodeBinary_decodeBinary h [] hwf
  rwa [List.append_nil] at this

/-- Witness for C9 at a concrete header. -/
theorem header_encode_decode_roundtrip_witness :
    Bin.Header.DecodeBinary (Bin.Header.EncodeBinary hdrB) = some (hdrB, []) :=
  header_encode_decode_roundtrip hdrB (by decide)

/-- Counterexample to C5 as stated: the encoding of the all-zero header
is 56 bytes, not the 80 bytes the claimed layout (with a 32-byte
content-commitment fifth field) requires — the fifth field written by
`EncodeBinary` is the 8-byte nonce, and this header variant has no
content-commitment field at all. -/
theorem header_encoding_layout_counterexample :
    Bin.WF hdrB0 ∧ (Bin.Header.EncodeBinary hdrB0).length = 56 ∧
    ¬ (∀ h : Bin.Header, Bin.WF h →
        (Bin.Header.EncodeBinary h).length = 4 + 32 + 8 + 4 + 32) := by
  refine ⟨by decide, by decide, ?_⟩
  intro hcl
  exact absurd (hcl hdrB0 (by decide)) (by decide)

/-- C5 as amended: `EncodeBinary` writes fixed-width little-endian fields
in a fixed order — version (4 bytes), previous hash (32 bytes), timestamp
(8 bytes), height (4 bytes), nonce (8 bytes, not a 32-byte commitment) —
56 bytes in all, and the encoding is bit-exact: two well-formed headers
encode to the same bytes exactly when they agree on every field.  (In
this variant the block hash is computed over these bytes; the
commitment-bearing variant computes block hashes and signatures over the
gob header encoding instead.) -/
theorem header_encoding_bit_exact (ha hb : Bin.Header)
    (hwfa : Bin.WF ha) (hwfb : Bin.WF hb) :
    (Bin.Header.EncodeBinary ha).length = 56 ∧
    (Bin.Header.EncodeBinary ha = Bin.Header.EncodeBinary hb ↔ ha = hb) := by
  constructor
  · obtain ⟨_, hp, _, _, _⟩ := hwfa
    simp [Bin.Header.EncodeBinary, toLE_length, hp]
  · constructor
    · intro he
      have d1 := encodeBinary_decodeBinary ha [] hwfa
      have d2 := encodeBinary_decodeBinary hb [] hwfb
      rw [he] at d1
      rw [d1] at d2
      have d3 := Option.some.inj d2
      exact congrArg Prod.fst d3
    · intro he
      rw [he]

/-- Witness for C5's amended theorem at concrete headers. -/
theorem header_encoding_bit_exact_witness :
    (Bin.Header.EncodeBinary hdrB).length = 56 ∧
    (Bin.Header.EncodeBinary hdrB = Bin.Header.EncodeBinary hdrB0 ↔ hdrB = hdrB0) :=
  header_encoding_bit_exact hdrB hdrB0 (by decide) (by decide)

/-- The cached-hash update of `Transaction.Hash` leaves the first-seen
time unchanged. -/
theorem hashRun_snd_firstSeen (cm : CryptoModel) (tx : Transaction) :
    (Transaction.HashRun cm tx).2.firstSeen = tx.firstSeen := by
  simp only [Transaction.HashRun]
  split <;> rfl

/-- Inserting into the sorted list permutes consing. -/
theorem insertByFirstSeen_perm (tx : Transaction) (l : List Transaction) :
    (insertByFirstSeen tx l).Perm (tx :: l) := by
  induction l with
  | nil => exact List.Perm.refl _
  | cons t ts ih =>
    unfold insertByFirstSeen
    by_cases hc : tx.firstSeen < t.firstSeen
    · rw [if_pos hc]
    · rw [if_neg hc]
      exact (List.Perm.cons t ih).trans (List.Perm.swap tx t ts)

/-- The sort produces a permutation of its input. -/
theorem sortByFirstSeen_perm (l : List Transaction) : (sortByFirstSeen l).Perm l := by
  induction l with
  | nil => exact List.Perm.refl _
  | cons t ts ih =>
    unfold sortByFirstSeen
    exact (insertByFirstSeen_perm t (sortByFirstSeen ts)).trans (List.Perm.cons t ih)

/-- Inserting into a list sorted by first-seen keeps it sorted. -/
theorem insertByFirstSeen_pairwise (tx : Transaction) (l : List Transaction)
    (h : l.Pairwise (fun a b => a.firstSeen ≤ b.firstSeen)) :
    (insertByFirstSeen tx l).Pairwise (fun a b => a.firstSeen ≤ b.firstSeen) := by
  induction l with
  | nil => simp [insertByFirstSeen]
  | cons t ts ih =>
    unfold insertByFirstSeen
    by_cases hc : tx.firstSeen < t.firstSeen
    · rw [if_pos hc]
      constructor
      · intro b hb
        rcases List.mem_cons.mp hb with h1 | h2
        · rw [h1]
          exact le_of_lt hc
        · exact le_trans (le_of_lt hc) (List.rel_of_pairwise_cons h h2)
      · exact h
    · rw [if_neg hc]
      have hle : t.firstSeen ≤ tx.firstSeen := le_of_not_lt hc
      constructor
      · intro b hb
        have hmem := (insertByFirstSeen_perm tx ts).mem_iff.mp hb
        rcases List.mem_cons.mp hmem with h1 | h2
        · rw [h1]
          exact hle
        · exact List.rel_of_pairwise_cons h h2
      · exact ih (List.pairwise_cons.mp h).2

/-- The sort output is sorted (non-strictly) by first-seen. -/
theorem sortByFirstSeen_pairwise (l : List Transaction) :
    (sortByFirstSeen l).Pairwise (fun a b => a.firstSeen ≤ b.firstSeen) := by
  induction l with
  | nil => simp [sortByFirstSeen]
  | cons t ts ih =>
    unfold sortByFirstSeen
    exact insertByFirstSeen_pairwise t (sortByFirstSeen ts) ih

/-- A strictly first-seen-sorted list is the unique non-strictly sorted
arrangement of its elements: any sorted permutation of it is itself.
This is what makes the pool's enumeration order (the Go map iteration
order) and the particular sorting algorithm irrelevant under distinct
timestamps. -/
theorem strictSorted_perm_unique (l1 : List Transaction) :
    ∀ l2 : List Transaction, l1.Perm l2 →
      l1.Pairwise (fun a b => a.firstSeen < b.firstSeen) →
      l2.Pairwise (fun a b => a.firstSeen ≤ b.firstSeen) →
      l2 = l1 := by
  induction l1 with
  | nil =>
    intro l2 hp _ _
    exact hp.nil_eq.symm
  | cons a t1 ih =>
    intro l2 hp h1 h2
    cases l2 with
    | nil => exact absurd hp.eq_nil (List.cons_ne_nil a t1)
    | cons b t2 =>
      by_cases hab : a = b
      · subst hab
        have ht := ih t2 hp.cons_inv (List.pairwise_cons.mp h1).2 (List.pairwise_cons.mp h2).2
        rw [ht]
      · have hbmem : b ∈ a :: t1 := hp.symm.subset (List.mem_cons_self b t2)
        have hamem : a ∈ b :: t2 := hp.subset (List.mem_cons_self a t1)
        have hb1 : b ∈ t1 := by
          rcases List.mem_cons.mp hbmem with h | h
          · exact absurd h.symm hab
          · exact h
        have ha2 : a ∈ t2 := by
          rcases List.mem_cons.mp hamem with h | h
          · exact absurd h hab
          · exact h
        have hlt : a.firstSeen < b.firstSeen := List.rel_of_pairwise_cons h1 hb1
        have hle : b.firstSeen ≤ a.firstSeen := List.rel_of_pairwise_cons h2 ha2
        omega

/-- Inserting a fresh key appends the binding at the end of the map. -/
theorem mapInsert_append_of_not_mem (k : Hash) (v : Transaction)
    (l : List (Hash × Transaction)) (h : ∀ q ∈ l, q.1 ≠ k) :
    mapInsert k v l = l ++ [(k, v)] := by
  induction l with
  | nil => rfl
  | cons q rest ih =>
    unfold mapInsert
    rw [if_neg (h q (List.mem_cons_self q rest)),
      ih (fun q2 hq2 => h q2 (List.mem_cons_of_mem q hq2))]
    rfl

/-- Adding transactions with pairwise-distinct hashes, none already in
the pool, appends their bindings in insertion order (each transaction
stored with its hash cached). -/
theorem addAll_transactions (cm : CryptoModel) (txs : List Transaction) :
    ∀ l : List (Hash × Transaction),
      (∀ tx ∈ txs, ∀ q ∈ l, q.1 ≠ cm.sha tx.Data) →
      txs.Pairwise (fun a b => cm.sha a.Data ≠ cm.sha b.Data) →
      (addAll cm ⟨l⟩ txs).transactions =
        l ++ txs.map (fun tx => (cm.sha tx.Data, (Transaction.HashRun cm tx).2)) := by
  induction txs with
  | nil =>
    intro l _ _
    simp [addAll]
  | cons tx rest ih =>
    intro l hdisj hh
    unfold addAll
    have hpool : (TxPool.Add cm ⟨l⟩ tx).2 =
        (⟨l ++ [(cm.sha tx.Data, (Transaction.HashRun cm tx).2)]⟩ : TxPool) := by
      show (⟨mapInsert (Transaction.HashRun cm tx).1 (Transaction.HashRun cm tx).2 l⟩ :
        TxPool) = _
      rw [hashRun_fst,
        mapInsert_append_of_not_mem _ _ l
          (fun q hq => hdisj tx (List.mem_cons_self tx rest) q hq)]
    rw [hpool,
      ih (l ++ [(cm.sha tx.Data, (Transaction.HashRun cm tx).2)])
        ?_ (List.pairwise_cons.mp hh).2]
    · simp
    · intro tx2 htx2 q hq
      rcases List.mem_append.mp hq with h | h
      · exact hdisj tx2 (List.mem_cons_of_mem tx htx2) q h
      · rw [List.mem_singleton.mp h]
        exact List.rel_of_pairwise_cons hh htx2

/-- Counterexample to C8 as stated: `txA` and `txB` have strictly
increasing first-seen times but identical data, so their hashes collide
and the second insertion overwrites the first — `Transactions()` returns
one transaction, not the two that were inserted. -/
theorem txpool_ordering_counterexample :
    ([txA, txB].Pairwise (fun a b => a.firstSeen < b.firstSeen)) ∧
    (addAll cmId ⟨[]⟩ [txA, txB]).Transactions.length ≠ 2 := by
  constructor
  · decide
  · decide

/-- C8 as amended: inserting N transactions with strictly increasing
first-seen timestamps and pairwise-distinct hashes (distinct data) into
an empty pool, `Transactions()` returns exactly those N transactions in
insertion order (each carrying its cached hash) — and it does so for
every enumeration order of the pool's map, since under distinct
timestamps the sorted permutation is unique. -/
theorem txpool_ordering (cm : CryptoModel) (txs iter : List Transaction)
    (hfs : txs.Pairwise (fun a b => a.firstSeen < b.firstSeen))
    (hh : txs.Pairwise (fun a b => cm.sha a.Data ≠ cm.sha b.Data))
    (hiter : iter.Perm ((addAll cm ⟨[]⟩ txs).transactions.map Prod.snd)) :
    sortByFirstSeen iter = txs.map (fun tx => (Transaction.HashRun cm tx).2) ∧
    (addAll cm ⟨[]⟩ txs).Transactions =
      txs.map (fun tx => (Transaction.HashRun cm tx).2) := by
  have hvals : (addAll cm ⟨[]⟩ txs).transactions.map Prod.snd =
      txs.map (fun tx => (Transaction.HashRun cm tx).2) := by
    rw [addAll_transactions cm txs [] (by simp) hh]
    simp
  have hstored : (txs.map (fun tx => (Transaction.HashRun cm tx).2)).Pairwise
      (fun a b => a.firstSeen < b.firstSeen) := by
    refine List.Pairwise.map _ ?_ hfs
    intro a b hab
    rw [hashRun_snd_firstSeen, hashRun_snd_firstSeen]
    exact hab
  have hgen : ∀ it : List Transaction,
      it.Perm ((addAll cm ⟨[]⟩ txs).transactions.map Prod.snd) →
      sortByFirstSeen it = txs.map (fun tx => (Transaction.HashRun cm tx).2) := by
    intro it hit
    have hperm : (txs.map (fun tx => (Transaction.HashRun cm tx).2)).Perm
        (sortByFirstSeen it) := by
      rw [← hvals]
      exact hit.symm.trans (sortByFirstSeen_perm it).symm
    exact strictSorted_perm_unique _ _ hperm hstored (sortByFirstSeen_pairwise it)
  exact ⟨hgen iter hiter, hgen _ (List.Perm.refl _)⟩

/-- Witness for C8's amended theorem: two concrete transactions with
distinct data and increasing first-seen times come back in insertion
order. -/
theorem txpool_ordering_witness :
    (addAll cmId ⟨[]⟩ [txA, txC]).Transactions =
      [txA, txC].map (fun tx => (Transaction.HashRun cmId tx).2) :=
  (txpool_ordering cmId [txA, txC]
    ((addAll cmId ⟨[]⟩ [txA, txC]).transactions.map Prod.snd)
    (by decide) (by decide) (List.Perm.refl _)).2

end Blockchainz
